import Mathlib

/-!
Verification of the asynchronous job queue of gbr-sdk
(`src/lib/modules/queue.js`, class `JobQueue`).

The JavaScript class is shallowly embedded: the in-memory `Map` of jobs
becomes a `List Job` in insertion order (JS `Map` iteration is insertion
order), timestamps are `Int` milliseconds, the opaque payload/result blobs
are modelled as uninterpreted `String`s, and each method that reads
`Date.now()` takes an explicit `now : Int` argument.  Asynchronous worker
interleavings are modelled by a labelled transition relation on a single
job record.
-/

namespace GbrQueue

/-- Job status values used by `queue.js`
(`waiting`, `active`, `completed`, `failed`). -/
inductive JobStatus where
  | waiting
  | active
  | completed
  | failed
deriving DecidableEq, Repr

/-- The job record built by `JobQueue.add` (queue.js lines 57-74).
Fields that JavaScript leaves `undefined` until a later transition
(`startedAt`, `completedAt`, `failedAt`, `processingTime`) are `Option`s.
The opaque `data`/`result` blobs are modelled as uninterpreted strings. -/
structure Job where
  id : String
  type : String
  data : String
  priority : Int
  delay : Int
  maxRetries : Nat
  timeout : Int
  status : JobStatus
  attempts : Nat
  createdAt : Int
  processAt : Int
  updatedAt : Int
  result : Option String
  error : Option String
  progress : Int
  logs : List (String × String)
  startedAt : Option Int
  completedAt : Option Int
  failedAt : Option Int
  processingTime : Option Int
deriving DecidableEq, Repr

/-- JavaScript `x || d` for an optional numeric argument: `0` is falsy,
so an explicit `0` falls back to the default, exactly like
`options.maxRetries || this.config.maxRetries` in `add`. -/
def jsOrInt (o : Option Int) (dflt : Int) : Int :=
  match o with
  | none => dflt
  | some n => if n = 0 then dflt else n

/-- JavaScript `x || d` on an optional natural-number argument. -/
def jsOrNat (o : Option Nat) (dflt : Nat) : Nat :=
  match o with
  | none => dflt
  | some n => if n = 0 then dflt else n

/-- Queue configuration defaults from the `JobQueue` constructor
(queue.js lines 13-22); only the fields the verified operations read. -/
structure QueueConfig where
  maxRetries : Nat := 3
  retryDelay : Int := 5000
  timeout : Int := 300000
deriving DecidableEq, Repr

/-- The `options` bag accepted by `JobQueue.add`. -/
structure AddOptions where
  priority : Option Int := none
  delay : Option Int := none
  maxRetries : Option Nat := none
  timeout : Option Int := none
deriving DecidableEq, Repr

/-- The job object literal constructed by `JobQueue.add`
(queue.js lines 57-74).  `id` is the random hex id, `now` is `Date.now()`. -/
def mkJob (cfg : QueueConfig) (id jobType data : String) (opts : AddOptions)
    (now : Int) : Job :=
  { id := id
    type := jobType
    data := data
    priority := jsOrInt opts.priority 0
    delay := jsOrInt opts.delay 0
    maxRetries := jsOrNat opts.maxRetries cfg.maxRetries
    timeout := jsOrInt opts.timeout cfg.timeout
    status := JobStatus.waiting
    attempts := 0
    createdAt := now
    processAt := now + jsOrInt opts.delay 0
    updatedAt := now
    result := none
    error := none
    progress := 0
    logs := []
    startedAt := none
    completedAt := none
    failedAt := none
    processingTime := none }

/-- The mutable queue state: the job `Map` (as a list in insertion order)
plus the incremental `this.stats` counters (queue.js lines 24-34).
The counters are `Int` because the code freely increments and decrements
them. -/
structure QueueState where
  jobs : List Job
  totalJobs : Nat
  completedJobs : Int
  failedJobs : Int
  activeJobs : Int
  waitingJobs : Int
  delayedJobs : Int
deriving DecidableEq, Repr

/-- `JobQueue.add` (queue.js lines 56-100): unconditionally constructs the
job, stores it (`Map.set` appends for a fresh id), increments `totalJobs`
and `waitingJobs`, and increments `delayedJobs` when `delay > 0`.
There is no validation of `jobType` anywhere in the method.
The `setTimeout` wake-up callback is asynchronous and not part of the
synchronous effect modelled here. -/
def addJobToQueue (cfg : QueueConfig) (st : QueueState)
    (id jobType data : String) (opts : AddOptions) (now : Int) :
    Job × QueueState :=
  let j := mkJob cfg id jobType data opts now
  (j,
    { st with
      jobs := st.jobs ++ [j]
      totalJobs := st.totalJobs + 1
      waitingJobs := st.waitingJobs + 1
      delayedJobs := if j.delay > 0 then st.delayedJobs + 1 else st.delayedJobs })

/-- The readiness test of the scheduler scan (queue.js line 320):
`job.status === 'waiting' && job.processAt <= now`. -/
def isReady (j : Job) (now : Int) : Prop :=
  j.status = JobStatus.waiting ∧ j.processAt ≤ now

instance (j : Job) (now : Int) : Decidable (isReady j now) := by
  unfold isReady; infer_instance

/-- The linear scan of `getNextJob` (queue.js lines 315-326): walk the job
map in insertion order, remembering the current best; a ready waiting job
replaces the best only when its priority is strictly greater
(`job.priority > highestPriority`, starting from `-Infinity`). -/
def selectNextAux (now : Int) (best : Option Job) : List Job → Option Job
  | [] => best
  | j :: rest =>
    if isReady j now then
      match best with
      | none => selectNextAux now (some j) rest
      | some b =>
        if b.priority < j.priority then selectNextAux now (some j) rest
        else selectNextAux now (some b) rest
    else selectNextAux now best rest

/-- The job selected by `JobQueue.getNextJob` before it is claimed. -/
def selectNext (jobs : List Job) (now : Int) : Option Job :=
  selectNextAux now none jobs

/-- The claim mutation of `getNextJob` (queue.js lines 328-335):
`status = 'active'`, `startedAt = now`, `updatedAt = now`. -/
def claimJob (j : Job) (now : Int) : Job :=
  { j with status := JobStatus.active, startedAt := some now, updatedAt := now }

/-- `JobQueue.completeJob` (queue.js lines 383-396). -/
def completeJob (j : Job) (res : String) (now : Int) : Job :=
  { j with
    status := JobStatus.completed
    result := some res
    completedAt := some now
    processingTime := j.startedAt.map (fun s => now - s)
    updatedAt := now
    progress := 100 }

/-- `JobQueue.failJob` (queue.js lines 398-410). -/
def failJob (j : Job) (errMsg : String) (now : Int) : Job :=
  { j with
    status := JobStatus.failed
    error := some errMsg
    failedAt := some now
    processingTime := j.startedAt.map (fun s => now - s)
    updatedAt := now }

/-- `JobQueue.retryJob` (queue.js lines 412-429): increment `attempts`,
go back to `waiting`, and schedule
`processAt = now + retryDelay * 2^(attempts - 1)` with the
post-increment `attempts` — so the exponent equals the old attempt count. -/
def retryJob (retryDelay : Int) (j : Job) (errMsg : String) (now : Int) : Job :=
  { j with
    attempts := j.attempts + 1
    status := JobStatus.waiting
    processAt := now + retryDelay * 2 ^ j.attempts
    updatedAt := now
    error := some errMsg }

/-- Outcome of invoking a registered processor: it resolves with a result
or rejects (a thrown error or the timeout race losing). -/
inductive HandlerOutcome where
  | success (res : String)
  | failure (msg : String)
deriving DecidableEq, Repr

/-- `JobQueue.executeJob` (queue.js lines 342-381) as a state
transformer on the job.  `reg` tells whether a processor is registered
for a type.  If none is registered the job fails immediately with the
no-processor message (lines 345-348) and the handler is never invoked;
otherwise the handler outcome drives completion, retry
(`attempts < maxRetries`) or permanent failure. -/
def executeJob (reg : String → Bool) (retryDelay : Int) (j : Job)
    (out : HandlerOutcome) (now : Int) : Job :=
  if reg j.type then
    match out with
    | HandlerOutcome.success res => completeJob j res now
    | HandlerOutcome.failure msg =>
      if j.attempts < j.maxRetries then retryJob retryDelay j msg now
      else failJob j msg now
  else failJob j ("No processor found for job type: " ++ j.type) now

/-- `JobQueue.updateJobProgress` (queue.js lines 441-446):
`progress = Math.max(0, Math.min(100, percent))`. -/
def updateJobProgress (j : Job) (percent : Int) (now : Int) : Job :=
  { j with progress := max 0 (min 100 percent), updatedAt := now }

/-- `JobQueue.updateStats` (queue.js lines 463-471): recompute every
counter (except `totalJobs`) from the job map; `delayedJobs` is derived as
`status === 'waiting' && processAt > Date.now()`. -/
def updateStats (st : QueueState) (now : Int) : QueueState :=
  { st with
    activeJobs :=
      ((st.jobs.filter fun j => decide (j.status = JobStatus.active)).length : Int)
    waitingJobs :=
      ((st.jobs.filter fun j => decide (j.status = JobStatus.waiting)).length : Int)
    delayedJobs :=
      ((st.jobs.filter fun j =>
        decide (j.status = JobStatus.waiting ∧ j.processAt > now)).length : Int)
    completedJobs :=
      ((st.jobs.filter fun j => decide (j.status = JobStatus.completed)).length : Int)
    failedJobs :=
      ((st.jobs.filter fun j => decide (j.status = JobStatus.failed)).length : Int) }

/-- The record returned by `JobQueue.getStats` (queue.js lines 258-265);
the fields `isRunning`, `workers` and `processors` concern the worker
pool, not the job store, and are omitted. -/
structure QueueStats where
  totalJobs : Nat
  completedJobs : Int
  failedJobs : Int
  activeJobs : Int
  waitingJobs : Int
  delayedJobs : Int
  avgProcessingTime : Int
  totalJobsInMemory : Nat
deriving DecidableEq, Repr

/-- JavaScript `Math.round` on an exact rational: `floor(x + 1/2)`. -/
def jsRound (q : ℚ) : Int := Int.floor (q + 1 / 2)

/-- `JobQueue.getStats` (queue.js lines 246-266): refresh the counters
via `updateStats`, then average the `processingTime` of completed jobs
whose `processingTime` is truthy (present and nonzero).  The float mean
is modelled exactly in `ℚ` before rounding. -/
def getStats (st : QueueState) (now : Int) : QueueStats :=
  let st2 := updateStats st now
  let times := st2.jobs.filterMap fun j =>
    if j.status = JobStatus.completed then
      match j.processingTime with
      | some t => if t = 0 then none else some t
      | none => none
    else none
  { totalJobs := st2.totalJobs
    completedJobs := st2.completedJobs
    failedJobs := st2.failedJobs
    activeJobs := st2.activeJobs
    waitingJobs := st2.waitingJobs
    delayedJobs := st2.delayedJobs
    avgProcessingTime :=
      if times.length = 0 then 0
      else jsRound ((times.sum : ℚ) / (times.length : ℚ))
    totalJobsInMemory := st2.jobs.length }

/-- The derived view of "delayed" in the spec's words (§9, design note):
the number of jobs with `status = waiting` and `processAt > now`.
Stated from the spec, to be compared with `getStats`. -/
def delayedView (jobs : List Job) (now : Int) : Nat :=
  (jobs.filter fun j =>
    decide (j.status = JobStatus.waiting ∧ now < j.processAt)).length

/-- `JobQueue.remove` (queue.js lines 202-218): look the job up; missing
job or `active` status returns `false` and leaves the state untouched;
otherwise the entry is deleted from the map and `updateStats` runs.
`Map.delete` removes the entry with that key; with the map's unique keys
this is the filter below. -/
def removeJob (st : QueueState) (jobId : String) (now : Int) :
    Bool × QueueState :=
  match st.jobs.find? (fun j => j.id == jobId) with
  | none => (false, st)
  | some j =>
    if j.status = JobStatus.active then (false, st)
    else
      (true,
        updateStats { st with jobs := st.jobs.filter fun k => k.id != jobId } now)

/-- The removal predicate of `JobQueue.clean` (queue.js line 228):
terminal status and `updatedAt < cutoff`. -/
def sweepMatch (cutoff : Int) (j : Job) : Prop :=
  (j.status = JobStatus.completed ∨ j.status = JobStatus.failed) ∧
    j.updatedAt < cutoff

instance (cutoff : Int) (j : Job) : Decidable (sweepMatch cutoff j) := by
  unfold sweepMatch; infer_instance

/-- `JobQueue.clean` (queue.js lines 223-241): the loop deletes every
entry matching `sweepMatch (now - olderThan)` (net effect on the map:
keep the non-matching entries) while counting the deletions, and
refreshes the counters only when at least one job was deleted. -/
def clean (st : QueueState) (olderThan : Int) (now : Int) : Nat × QueueState :=
  if (st.jobs.countP fun j => decide (sweepMatch (now - olderThan) j)) > 0 then
    (st.jobs.countP fun j => decide (sweepMatch (now - olderThan) j),
      updateStats
        { st with
          jobs := st.jobs.filter fun j =>
            decide (¬ sweepMatch (now - olderThan) j) } now)
  else
    (st.jobs.countP fun j => decide (sweepMatch (now - olderThan) j),
      { st with
        jobs := st.jobs.filter fun j =>
          decide (¬ sweepMatch (now - olderThan) j) })

/-- The sort comparator of `JobQueue.getJobs` (queue.js lines 189-194)
returns a negative number on `(a, b)` — `a` strictly precedes `b` — iff
`a` has the higher priority, or priorities are equal and `a` was created
strictly earlier. -/
def jobBefore (a b : Job) : Prop :=
  b.priority < a.priority ∨ (a.priority = b.priority ∧ a.createdAt < b.createdAt)

instance (a b : Job) : Decidable (jobBefore a b) := by
  unfold jobBefore; infer_instance

/-- Stable insertion used to model `Array.prototype.sort` with the
comparator above: the new element `x`, which originates earlier in the
input than everything already placed, moves past `y` only when `y`
strictly precedes it, so comparator ties keep input order — exactly the
stable order ECMAScript requires of `sort`. -/
def insertJob (x : Job) : List Job → List Job
  | [] => [x]
  | y :: ys => if jobBefore y x then y :: insertJob x ys else x :: y :: ys

/-- The stable sort performed by `getJobs`: sorted by priority
descending, then `createdAt` ascending, comparator ties in input order. -/
def sortJobs (l : List Job) : List Job :=
  l.foldr insertJob []

/-- `JobQueue.getJobs` (queue.js lines 183-197): optionally filter by
status (a falsy `status` argument keeps all jobs), stable-sort by the
comparator, and truncate to `limit` (default 50). -/
def getJobs (st : QueueState) (statusFilter : Option JobStatus)
    (limit : Nat) : List Job :=
  let filtered :=
    match statusFilter with
    | some s => st.jobs.filter fun j => decide (j.status = s)
    | none => st.jobs
  (sortJobs filtered).take limit

/-- The in-place claim performed by `getNextJob` on the job map: the
entry whose key is `jid` becomes active (`Map` keys are unique; in list
form every entry carrying that id is claimed). -/
def claimStore (l : List Job) (jid : String) (now : Int) : List Job :=
  l.map fun k => if k.id = jid then claimJob k now else k

/-- Repeatedly asking `getNextJob` for the next job with a frozen clock
and no new arrivals: each selected job is claimed in the store and the
scan repeats.  `fuel` bounds the recursion; `l.length` suffices. -/
def dispatchAux (now : Int) : Nat → List Job → List Job
  | 0, _ => []
  | fuel + 1, l =>
    match selectNext l now with
    | none => []
    | some j => j :: dispatchAux now fuel (claimStore l j.id now)

/-- The scheduler's dispatch order on the ready jobs of a store at a
fixed instant `now`. -/
def dispatchList (l : List Job) (now : Int) : List Job :=
  dispatchAux now l.length l

/-- One transition of a single job record, labelled with whether the
processor (handler) was invoked.  `claim` is the `getNextJob` claim of a
ready waiting job; `exec` is `executeJob` on an active job, which invokes
the handler exactly when one is registered for the job's type. -/
inductive JStep (reg : String → Bool) (retryDelay : Int) :
    Job → Bool → Job → Prop
  | claim (j : Job) (now : Int) :
      j.status = JobStatus.waiting → j.processAt ≤ now →
      JStep reg retryDelay j false (claimJob j now)
  | exec (j : Job) (out : HandlerOutcome) (now : Int) :
      j.status = JobStatus.active →
      JStep reg retryDelay j (reg j.type) (executeJob reg retryDelay j out now)

/-- Multi-step execution of one job, counting handler invocations. -/
inductive Exec (reg : String → Bool) (retryDelay : Int) (j : Job) :
    Nat → Job → Prop
  | refl : Exec reg retryDelay j 0 j
  | step {k k' : Job} {n : Nat} {b : Bool} :
      Exec reg retryDelay j n k → JStep reg retryDelay k b k' →
      Exec reg retryDelay j (if b then n + 1 else n) k'

/-- `JobQueue.getNextJob` as a whole (queue.js lines 312-340): the scan
followed by the claim of the selected job, returning the claimed record
and the updated store. -/
def getNextJob (jobs : List Job) (now : Int) : Option Job × List Job :=
  match selectNext jobs now with
  | none => (none, jobs)
  | some j => (some (claimJob j now), claimStore jobs j.id now)

/-- Boolean readiness, for `List.filter`. -/
def isReadyB (now : Int) (j : Job) : Bool := decide (isReady j now)

/-- The first job of maximal priority of a list, scanning left to right
and replacing the best only on a strictly greater priority — the
order-theoretic content of the `getNextJob` scan, recursed from the
right for easy induction. -/
def firstMax : List Job → Option Job
  | [] => none
  | x :: xs =>
    match firstMax xs with
    | none => some x
    | some b => if x.priority < b.priority then some b else some x

/-- Merging a running best with the best of the remaining scan: the
later candidate wins only on strictly greater priority, as in the
`job.priority > highestPriority` test. -/
def mergeBest (best c : Option Job) : Option Job :=
  match best, c with
  | none, c => c
  | some b, none => some b
  | some b, some c => some (if b.priority < c.priority then c else b)

/-- 1 on a terminal status, 0 otherwise; measures how many handler
invocations a job state can still account for beyond its retries. -/
def termFlag : JobStatus → Nat
  | JobStatus.completed => 1
  | JobStatus.failed => 1
  | _ => 0

/-- A fully explicit job record for concrete witnesses and
counterexamples: id, priority, creation time, process-at time, status. -/
def baseJob (i : String) (p c pa : Int) (s : JobStatus) : Job :=
  { id := i, type := "task", data := "payload", priority := p, delay := 0,
    maxRetries := 3, timeout := 300000, status := s, attempts := 0,
    createdAt := c, processAt := pa, updatedAt := 0, result := none,
    error := none, progress := 0, logs := [], startedAt := none,
    completedAt := none, failedAt := none, processingTime := none }

/-- Counterexample store for the tie-break claims: two ready waiting jobs
of equal priority whose insertion order disagrees with `createdAt`
order — `cjA` was inserted first but created later. -/
def cjA : Job := baseJob "A" 0 5 0 JobStatus.waiting

/-- The second job of the tie-break counterexample: created earlier
(`createdAt = 3`) but inserted after `cjA`. -/
def cjB : Job := baseJob "B" 0 3 0 JobStatus.waiting

/-- The empty queue state. -/
def emptyState : QueueState :=
  { jobs := [], totalJobs := 0, completedJobs := 0, failedJobs := 0,
    activeJobs := 0, waitingJobs := 0, delayedJobs := 0 }

/-- A fresh waiting job for the retry-ceiling witness. -/
def jw : Job := baseJob "W" 0 0 0 JobStatus.waiting

/-- A handler registry with a processor registered for every type. -/
def regAll : String → Bool := fun _ => true

/-- A handler registry with no processor registered at all. -/
def regNone : String → Bool := fun _ => false

/-- An active job mid-execution (one prior attempt) for the backoff
witness. -/
def j3 : Job := { baseJob "R" 0 0 40 JobStatus.active with attempts := 1 }

/-- An active never-attempted job of an unregistered type, for the
no-handler witness. -/
def j5 : Job := baseJob "U" 0 0 0 JobStatus.active

/-- A store holding one active and one waiting job, for the remove
witness. -/
def stA : QueueState :=
  { emptyState with
    jobs := [baseJob "act" 0 1 0 JobStatus.active,
             baseJob "wai" 0 2 0 JobStatus.waiting] }

/-- A store whose insertion order has nondecreasing `createdAt` and
distinct ids — the shape every store reachable through `add` has — for
the ordering witnesses. -/
def wstore : QueueState :=
  { emptyState with
    jobs := [baseJob "w1" 0 1 0 JobStatus.waiting,
             baseJob "w2" 5 2 0 JobStatus.waiting,
             baseJob "w3" 5 3 0 JobStatus.waiting,
             baseJob "w4" 1 4 99 JobStatus.waiting] }

/-! ### Order lemmas for the `getJobs` comparator -/

theorem jobBefore_asymm {a b : Job} (h : jobBefore a b) : ¬ jobBefore b a := by
  unfold jobBefore at h ⊢; omega

theorem not_jobBefore_trans {a b c : Job} (h1 : ¬ jobBefore b a)
    (h2 : ¬ jobBefore c b) : ¬ jobBefore c a := by
  unfold jobBefore at h1 h2 ⊢; omega

theorem insertJob_nil (x : Job) : insertJob x [] = [x] := rfl

theorem insertJob_cons (x y : Job) (ys : List Job) :
    insertJob x (y :: ys) =
      if jobBefore y x then y :: insertJob x ys else x :: y :: ys := rfl

theorem sortJobs_nil : sortJobs [] = [] := rfl

theorem sortJobs_cons (x : Job) (xs : List Job) :
    sortJobs (x :: xs) = insertJob x (sortJobs xs) := rfl

theorem insertJob_perm (x : Job) (s : List Job) :
    List.Perm (insertJob x s) (x :: s) := by
  induction s with
  | nil => exact List.Perm.refl _
  | cons y ys ih =>
    rw [insertJob_cons]
    by_cases h : jobBefore y x
    · rw [if_pos h]
      exact (List.Perm.cons y ih).trans (List.Perm.swap x y ys)
    · rw [if_neg h]

theorem sortJobs_perm (l : List Job) : List.Perm (sortJobs l) l := by
  induction l with
  | nil => exact List.Perm.refl _
  | cons x xs ih =>
    exact (insertJob_perm x (sortJobs xs)).trans (List.Perm.cons x ih)

theorem insertJob_eq_cons {x : Job} {s : List Job}
    (h : ∀ z ∈ s, ¬ jobBefore z x) : insertJob x s = x :: s := by
  cases s with
  | nil => rfl
  | cons z rest =>
    rw [insertJob_cons, if_neg (h z (List.mem_cons_self z rest))]

theorem insertJob_sorted {x : Job} {s : List Job}
    (hs : s.Pairwise fun a b => ¬ jobBefore b a) :
    (insertJob x s).Pairwise fun a b => ¬ jobBefore b a := by
  induction s with
  | nil => simp [insertJob_nil]
  | cons y ys ih =>
    rcases List.pairwise_cons.mp hs with ⟨hy, hys⟩
    rw [insertJob_cons]
    by_cases h : jobBefore y x
    · rw [if_pos h]
      refine List.pairwise_cons.mpr ⟨?_, ih hys⟩
      intro z hz
      rcases List.mem_cons.mp ((insertJob_perm x ys).mem_iff.mp hz) with
        hzx | hzys
      · subst hzx; exact jobBefore_asymm h
      · exact hy z hzys
    · rw [if_neg h]
      refine List.pairwise_cons.mpr ⟨?_, hs⟩
      intro z hz
      rcases List.mem_cons.mp hz with hzy | hzys
      · subst hzy; exact h
      · exact not_jobBefore_trans h (hy z hzys)

theorem sortJobs_sorted (l : List Job) :
    (sortJobs l).Pairwise fun a b => ¬ jobBefore b a := by
  induction l with
  | nil => simp [sortJobs_nil]
  | cons x xs ih => exact insertJob_sorted ih

theorem filter_insertJob_pos {p : Job → Bool} {x : Job} {s : List Job}
    (hs : s.Pairwise fun a b => ¬ jobBefore b a) (hx : p x = true) :
    (insertJob x s).filter p = insertJob x (s.filter p) := by
  induction s with
  | nil => simp [insertJob_nil, hx]
  | cons y ys ih =>
    rcases List.pairwise_cons.mp hs with ⟨hy, hys⟩
    rw [insertJob_cons]
    by_cases h : jobBefore y x
    · rw [if_pos h]
      by_cases hpy : p y = true
      · rw [List.filter_cons_of_pos hpy, ih hys, List.filter_cons_of_pos hpy,
          insertJob_cons, if_pos h]
      · have hpy' : ¬ p y = true := hpy
        rw [List.filter_cons_of_neg hpy', ih hys, List.filter_cons_of_neg hpy']
    · rw [if_neg h, List.filter_cons_of_pos hx]
      have hall : ∀ z ∈ (y :: ys).filter p, ¬ jobBefore z x := by
        intro z hz
        rcases List.mem_cons.mp ((List.filter_sublist (y :: ys)).subset hz) with
          hzy | hzys
        · subst hzy; exact h
        · exact not_jobBefore_trans h (hy z hzys)
      rw [insertJob_eq_cons hall]

theorem filter_insertJob_neg {p : Job → Bool} {x : Job} {s : List Job}
    (hx : ¬ p x = true) :
    (insertJob x s).filter p = s.filter p := by
  induction s with
  | nil => simp [insertJob_nil]; simpa using hx
  | cons y ys ih =>
    rw [insertJob_cons]
    by_cases h : jobBefore y x
    · rw [if_pos h]
      by_cases hpy : p y = true
      · rw [List.filter_cons_of_pos hpy, ih, List.filter_cons_of_pos hpy]
      · rw [List.filter_cons_of_neg hpy, ih, List.filter_cons_of_neg hpy]
    · rw [if_neg h, List.filter_cons_of_neg hx]

theorem filter_sortJobs (p : Job → Bool) (l : List Job) :
    (sortJobs l).filter p = sortJobs (l.filter p) := by
  induction l with
  | nil => rfl
  | cons x xs ih =>
    rw [sortJobs_cons]
    by_cases hx : p x = true
    · rw [filter_insertJob_pos (sortJobs_sorted xs) hx, ih,
        List.filter_cons_of_pos hx, sortJobs_cons]
    · rw [filter_insertJob_neg hx, ih, List.filter_cons_of_neg hx]

/-! ### The `getNextJob` scan -/

theorem firstMax_nil : firstMax [] = none := rfl

theorem firstMax_cons (x : Job) (xs : List Job) :
    firstMax (x :: xs) =
      match firstMax xs with
      | none => some x
      | some b => if x.priority < b.priority then some b else some x := rfl

theorem firstMax_eq_none {m : List Job} : firstMax m = none ↔ m = [] := by
  cases m with
  | nil => simp [firstMax_nil]
  | cons x xs =>
    rw [firstMax_cons]
    cases h : firstMax xs
    · simp
    · simp only [List.cons_ne_nil, iff_false]
      split <;> simp

theorem selectNextAux_nil (now : Int) (best : Option Job) :
    selectNextAux now best [] = best := rfl

theorem selectNextAux_cons (now : Int) (best : Option Job) (j : Job)
    (rest : List Job) :
    selectNextAux now best (j :: rest) =
      if isReady j now then
        match best with
        | none => selectNextAux now (some j) rest
        | some b =>
          if b.priority < j.priority then selectNextAux now (some j) rest
          else selectNextAux now (some b) rest
      else selectNextAux now best rest := rfl

/-- The scan of `getNextJob` with an arbitrary running best equals
`firstMax` of the ready jobs, merged with the best. -/
theorem selectNextAux_eq (now : Int) (l : List Job) :
    ∀ best : Option Job,
      selectNextAux now best l =
        mergeBest best (firstMax (l.filter (isReadyB now))) := by
  induction l with
  | nil =>
    intro best
    cases best <;> rfl
  | cons j rest ih =>
    intro best
    rw [selectNextAux_cons]
    by_cases hr : isReady j now
    · rw [if_pos hr,
        List.filter_cons_of_pos (show isReadyB now j = true by
          simp [isReadyB, hr]),
        firstMax_cons]
      cases best with
      | none =>
        show selectNextAux now (some j) rest = _
        rw [ih (some j)]
        cases hc : firstMax (rest.filter (isReadyB now)) with
        | none => rfl
        | some c =>
          show mergeBest (some j) (some c) =
            mergeBest none (if j.priority < c.priority then some c else some j)
          by_cases h2 : j.priority < c.priority
          · rw [if_pos h2]
            show some (if j.priority < c.priority then c else j) = some c
            rw [if_pos h2]
          · rw [if_neg h2]
            show some (if j.priority < c.priority then c else j) = some j
            rw [if_neg h2]
      | some b =>
        show (if b.priority < j.priority then selectNextAux now (some j) rest
          else selectNextAux now (some b) rest) = _
        by_cases h1 : b.priority < j.priority
        · rw [if_pos h1, ih (some j)]
          cases hc : firstMax (rest.filter (isReadyB now)) with
          | none =>
            show some j = some (if b.priority < j.priority then j else b)
            rw [if_pos h1]
          | some c =>
            show mergeBest (some j) (some c) =
              mergeBest (some b)
                (if j.priority < c.priority then some c else some j)
            by_cases h2 : j.priority < c.priority
            · rw [if_pos h2]
              show some (if j.priority < c.priority then c else j) =
                some (if b.priority < c.priority then c else b)
              rw [if_pos h2, if_pos (show b.priority < c.priority by omega)]
            · rw [if_neg h2]
              show some (if j.priority < c.priority then c else j) =
                some (if b.priority < j.priority then j else b)
              rw [if_neg h2, if_pos h1]
        · rw [if_neg h1, ih (some b)]
          cases hc : firstMax (rest.filter (isReadyB now)) with
          | none =>
            show some b = some (if b.priority < j.priority then j else b)
            rw [if_neg h1]
          | some c =>
            show mergeBest (some b) (some c) =
              mergeBest (some b)
                (if j.priority < c.priority then some c else some j)
            by_cases h2 : j.priority < c.priority
            · rw [if_pos h2]
            · rw [if_neg h2]
              show some (if b.priority < c.priority then c else b) =
                some (if b.priority < j.priority then j else b)
              rw [if_neg h1, if_neg (show ¬ b.priority < c.priority by omega)]
    · rw [if_neg hr,
        List.filter_cons_of_neg (show ¬ isReadyB now j = true by
          simp [isReadyB, hr])]
      exact ih best

theorem selectNext_eq_firstMax (l : List Job) (now : Int) :
    selectNext l now = firstMax (l.filter (isReadyB now)) := by
  rw [selectNext, selectNextAux_eq now l none]
  rfl

/-- On a list whose order has nondecreasing `createdAt`, the first
maximal-priority element has maximal priority and, among elements of
equal priority, minimal `createdAt`. -/
theorem firstMax_spec (m : List Job)
    (hm : m.Pairwise fun a b => a.createdAt ≤ b.createdAt) :
    ∀ r, firstMax m = some r →
      r ∈ m ∧ ∀ k ∈ m, k.priority ≤ r.priority ∧
        (k.priority = r.priority → r.createdAt ≤ k.createdAt) := by
  induction m with
  | nil => intro r hr; simp [firstMax_nil] at hr
  | cons x xs ih =>
    rcases List.pairwise_cons.mp hm with ⟨hx, hxs⟩
    intro r hr
    rw [firstMax_cons] at hr
    cases hb : firstMax xs with
    | none =>
      rw [hb] at hr
      have hxsnil : xs = [] := firstMax_eq_none.mp hb
      subst hxsnil
      have hxr : x = r := by simpa using hr
      subst hxr
      refine ⟨List.mem_cons_self x [], ?_⟩
      intro k hk
      have : k = x := by simpa using hk
      subst this
      exact ⟨le_refl _, fun _ => le_refl _⟩
    | some b =>
      rw [hb] at hr
      have hr' : (if x.priority < b.priority then some b else some x) = some r :=
        hr
      rcases ih hxs b hb with ⟨hbm, hball⟩
      by_cases h1 : x.priority < b.priority
      · rw [if_pos h1] at hr'
        have hbr : b = r := by simpa using hr'
        subst hbr
        refine ⟨List.mem_cons_of_mem x hbm, ?_⟩
        intro k hk
        rcases List.mem_cons.mp hk with hkx | hkxs
        · subst hkx
          exact ⟨le_of_lt h1, fun h => absurd h (by omega)⟩
        · exact hball k hkxs
      · rw [if_neg h1] at hr'
        have hxr : x = r := by simpa using hr'
        subst hxr
        refine ⟨List.mem_cons_self x xs, ?_⟩
        intro k hk
        rcases List.mem_cons.mp hk with hkx | hkxs
        · subst hkx
          exact ⟨le_refl _, fun _ => le_refl _⟩
        · refine ⟨?_, fun _ => hx k hkxs⟩
          have := (hball k hkxs).1
          omega

/-- Head agreement: on a store whose order has nondecreasing
`createdAt`, the head of the stable sort is exactly the job the
`getNextJob` scan selects. -/
theorem sortJobs_head_eq_firstMax (m : List Job)
    (hm : m.Pairwise fun a b => a.createdAt ≤ b.createdAt) :
    (sortJobs m).head? = firstMax m := by
  induction m with
  | nil => rfl
  | cons x xs ih =>
    rcases List.pairwise_cons.mp hm with ⟨hx, hxs⟩
    rw [sortJobs_cons, firstMax_cons]
    cases hs : sortJobs xs with
    | nil =>
      have hxsnil : xs = [] := by
        have hp := sortJobs_perm xs
        rw [hs] at hp
        exact hp.symm.eq_nil
      subst hxsnil
      rw [firstMax_nil]
      rfl
    | cons h0 t =>
      have hfm : firstMax xs = some h0 := by
        rw [← ih hxs, hs]
        rfl
      have hh0m : h0 ∈ xs := by
        have hp := sortJobs_perm xs
        rw [hs] at hp
        exact hp.subset (List.mem_cons_self h0 t)
      rw [hfm, insertJob_cons]
      show _ = if x.priority < h0.priority then some h0 else some x
      by_cases hb : jobBefore h0 x
      · rw [if_pos hb]
        have hlt : x.priority < h0.priority := by
          rcases hb with h | ⟨hpeq, hclt⟩
          · exact h
          · exact absurd hclt (by have := hx h0 hh0m; omega)
        rw [if_pos hlt]
        rfl
      · rw [if_neg hb]
        have hnlt : ¬ x.priority < h0.priority := by
          unfold jobBefore at hb
          omega
        rw [if_neg hnlt]
        rfl

/-! ### Dispatch order -/

theorem dispatchAux_succ (now : Int) (fuel : Nat) (l : List Job) :
    dispatchAux now (fuel + 1) l =
      match selectNext l now with
      | none => []
      | some j => j :: dispatchAux now fuel (claimStore l j.id now) := rfl

theorem filter_map_comm (f : Job → Job) (p : Job → Bool) (l : List Job) :
    (l.map f).filter p = (l.filter fun k => p (f k)).map f := by
  induction l with
  | nil => rfl
  | cons a l ih =>
    by_cases h : p (f a) = true
    · simp [List.filter_cons, h, ih]
    · simp [List.filter_cons, h, ih]

theorem claimStore_pairwise (jid : String) (now : Int) {l : List Job}
    (h : l.Pairwise fun a b => a.createdAt ≤ b.createdAt) :
    (claimStore l jid now).Pairwise fun a b => a.createdAt ≤ b.createdAt := by
  unfold claimStore
  rw [List.pairwise_map]
  refine h.imp ?_
  intro a b hab
  by_cases ha : a.id = jid <;> by_cases hb : b.id = jid <;>
    simp [claimJob, ha, hb, hab]

theorem claimStore_map_id (l : List Job) (jid : String) (now : Int) :
    (claimStore l jid now).map Job.id = l.map Job.id := by
  unfold claimStore
  rw [List.map_map]
  apply List.map_congr_left
  intro a _
  by_cases h : a.id = jid <;> simp [Function.comp, claimJob, h]

theorem claimStore_filter_ready (l : List Job) (r : Job) (now : Int) :
    (claimStore l r.id now).filter (isReadyB now) =
      (l.filter (isReadyB now)).filter fun k => decide (¬ k.id = r.id) := by
  unfold claimStore
  rw [filter_map_comm]
  have hpt : (fun k => isReadyB now (if k.id = r.id then claimJob k now else k)) =
      fun k => decide (¬ k.id = r.id) && isReadyB now k := by
    funext k
    by_cases h : k.id = r.id
    · simp [h, isReadyB, claimJob, isReady]
    · simp [h, isReadyB]
  rw [hpt, List.filter_filter]
  have hid : ∀ a ∈ l.filter fun k => decide (¬ k.id = r.id) && isReadyB now k,
      (if a.id = r.id then claimJob a now else a) = a := by
    intro a ha
    have := (List.mem_filter.mp ha).2
    rw [Bool.and_eq_true] at this
    have hne : ¬ a.id = r.id := by simpa using this.1
    rw [if_neg hne]
  calc (l.filter fun k => decide (¬ k.id = r.id) && isReadyB now k).map
        (fun k => if k.id = r.id then claimJob k now else k)
      = (l.filter fun k => decide (¬ k.id = r.id) && isReadyB now k).map id := by
        exact List.map_congr_left hid
    _ = l.filter fun k => decide (¬ k.id = r.id) && isReadyB now k :=
        List.map_id _

/-- With a frozen clock and no new arrivals, the sequence of jobs the
scheduler dispatches is exactly the stable-sorted ready list, provided
the store's insertion order has nondecreasing `createdAt` (true of
every store built by `add`, whose `createdAt` is the insertion-time
clock) and ids are distinct (guaranteed by the `Map`). -/
theorem dispatchAux_eq (now : Int) :
    ∀ (fuel : Nat) (l : List Job),
      (l.Pairwise fun a b => a.createdAt ≤ b.createdAt) →
      (l.map Job.id).Nodup →
      (l.filter (isReadyB now)).length ≤ fuel →
      dispatchAux now fuel l = sortJobs (l.filter (isReadyB now)) := by
  intro fuel
  induction fuel with
  | zero =>
    intro l hpair hnd hlen
    have h0 : l.filter (isReadyB now) = [] :=
      List.length_eq_zero.mp (Nat.le_zero.mp hlen)
    rw [h0]
    rfl
  | succ fuel ih =>
    intro l hpair hnd hlen
    have hpm : (l.filter (isReadyB now)).Pairwise
        (fun a b => a.createdAt ≤ b.createdAt) :=
      hpair.sublist (List.filter_sublist l)
    cases hsel : selectNext l now with
    | none =>
      have hfm : firstMax (l.filter (isReadyB now)) = none := by
        rw [← selectNext_eq_firstMax]; exact hsel
      have hm0 : l.filter (isReadyB now) = [] := firstMax_eq_none.mp hfm
      rw [dispatchAux_succ, hsel, hm0]
      rfl
    | some r =>
      have hfm : firstMax (l.filter (isReadyB now)) = some r := by
        rw [← selectNext_eq_firstMax]; exact hsel
      have hhead : (sortJobs (l.filter (isReadyB now))).head? = some r := by
        rw [sortJobs_head_eq_firstMax _ hpm]; exact hfm
      obtain ⟨t, ht⟩ : ∃ t, sortJobs (l.filter (isReadyB now)) = r :: t := by
        cases hs : sortJobs (l.filter (isReadyB now)) with
        | nil => rw [hs] at hhead; simp at hhead
        | cons a t =>
          rw [hs] at hhead
          have har : a = r := by simpa using hhead
          exact ⟨t, by rw [har]⟩
      have hndm : ((l.filter (isReadyB now)).map Job.id).Nodup :=
        hnd.sublist ((List.filter_sublist l).map Job.id)
      have hrt : ∀ k ∈ t, k.id ≠ r.id := by
        have hpermm := sortJobs_perm (l.filter (isReadyB now))
        have hndrt : ((r :: t).map Job.id).Nodup := by
          rw [← ht]
          exact ((hpermm.map Job.id).nodup_iff).mpr hndm
        rw [List.map_cons, List.nodup_cons] at hndrt
        intro k hk he
        exact hndrt.1 (he ▸ List.mem_map_of_mem Job.id hk)
      rw [dispatchAux_succ, hsel, ht]
      show r :: dispatchAux now fuel (claimStore l r.id now) = r :: t
      congr 1
      have hfl2 := claimStore_filter_ready l r now
      have hp2 := claimStore_pairwise r.id now hpair
      have hnd2 : ((claimStore l r.id now).map Job.id).Nodup := by
        rw [claimStore_map_id]; exact hnd
      have hsort2 : sortJobs ((claimStore l r.id now).filter (isReadyB now)) =
          t := by
        rw [hfl2, ← filter_sortJobs, ht,
          List.filter_cons_of_neg (by simp)]
        apply List.filter_eq_self.mpr
        intro k hk
        simpa using hrt k hk
      have hlen2 : ((claimStore l r.id now).filter (isReadyB now)).length ≤
          fuel := by
        have hlt : ((claimStore l r.id now).filter (isReadyB now)).length =
            t.length := by
          have hperm2 := sortJobs_perm
            ((claimStore l r.id now).filter (isReadyB now))
          rw [hsort2] at hperm2
          exact hperm2.length_eq.symm
        have hml : (l.filter (isReadyB now)).length = t.length + 1 := by
          have hperm3 := sortJobs_perm (l.filter (isReadyB now))
          rw [ht] at hperm3
          have := hperm3.length_eq
          simpa using this.symm
        omega
      rw [ih (claimStore l r.id now) hp2 hnd2 hlen2, hsort2]

/-! ### The per-job state machine -/

/-- A job whose status is `failed` admits no further transition: `claim`
needs `waiting` and `exec` needs `active`. -/
theorem failed_no_step {reg : String → Bool} {d : Int} {k : Job}
    (hf : k.status = JobStatus.failed) :
    ∀ (b : Bool) (k2 : Job), ¬ JStep reg d k b k2 := by
  intro b k2 hstep
  cases hstep with
  | claim now hw hp => exact JobStatus.noConfusion (hf.symm.trans hw)
  | exec out now ha => exact JobStatus.noConfusion (hf.symm.trans ha)

/-- Execution invariant: along any run, `attempts` stays within the
(unchanged) `maxRetries` bound, and the handler-invocation count is
bounded by `attempts` plus one once the job is terminal. -/
theorem exec_invariant {reg : String → Bool} {d : Int} {j k : Job} {n : Nat}
    (h : Exec reg d j n k) (h0a : j.attempts ≤ j.maxRetries) :
    k.attempts ≤ k.maxRetries ∧ k.maxRetries = j.maxRetries ∧
      n ≤ k.attempts + termFlag k.status := by
  induction h with
  | refl => exact ⟨h0a, rfl, Nat.zero_le _⟩
  | @step k2 k2' n2 b2 prev st ih =>
    rcases ih with ⟨ih1, ih2, ih3⟩
    cases st with
    | claim now hw hp =>
      rw [hw] at ih3
      have hfl : termFlag JobStatus.waiting = 0 := rfl
      rw [hfl] at ih3
      refine ⟨ih1, ih2, ?_⟩
      show (if false then n2 + 1 else n2) ≤
        (claimJob k2 now).attempts + termFlag (claimJob k2 now).status
      have ha2 : (claimJob k2 now).attempts = k2.attempts := rfl
      have hs2 : termFlag (claimJob k2 now).status = 0 := rfl
      rw [ha2, hs2, if_neg (by simp)]
      omega
    | exec out now ha =>
      rw [ha] at ih3
      have hfl : termFlag JobStatus.active = 0 := rfl
      rw [hfl] at ih3
      cases hreg : reg k2.type with
      | false =>
        have he : executeJob reg d k2 out now =
            failJob k2 ("No processor found for job type: " ++ k2.type) now := by
          unfold executeJob
          rw [hreg]
          rfl
        rw [he]
        refine ⟨ih1, ih2, ?_⟩
        show n2 ≤ k2.attempts + 1
        omega
      | true =>
        cases out with
        | success res =>
          have he : executeJob reg d k2 (HandlerOutcome.success res) now =
              completeJob k2 res now := by
            unfold executeJob
            rw [hreg]
            rfl
          rw [he]
          refine ⟨ih1, ih2, ?_⟩
          show n2 + 1 ≤ k2.attempts + 1
          omega
        | failure msg =>
          by_cases hlt : k2.attempts < k2.maxRetries
          · have he : executeJob reg d k2 (HandlerOutcome.failure msg) now =
                retryJob d k2 msg now := by
              unfold executeJob
              rw [hreg]
              show (if k2.attempts < k2.maxRetries then retryJob d k2 msg now
                else failJob k2 msg now) = retryJob d k2 msg now
              rw [if_pos hlt]
            rw [he]
            refine ⟨?_, ih2, ?_⟩
            · show k2.attempts + 1 ≤ k2.maxRetries
              omega
            · show n2 + 1 ≤ (k2.attempts + 1) + 0
              omega
          · have he : executeJob reg d k2 (HandlerOutcome.failure msg) now =
                failJob k2 msg now := by
              unfold executeJob
              rw [hreg]
              show (if k2.attempts < k2.maxRetries then retryJob d k2 msg now
                else failJob k2 msg now) = failJob k2 msg now
              rw [if_neg hlt]
            rw [he]
            refine ⟨ih1, ih2, ?_⟩
            show n2 + 1 ≤ k2.attempts + 1
            omega

/-! ### Claim theorems -/

/-- C1 (amended): on any store whose insertion order has nondecreasing
`createdAt` — the shape of every store built by `add`, whose `createdAt`
is the insertion-time clock — the job selected by the `getNextJob` scan
is a ready waiting job of maximal priority among ready jobs, and among
ready jobs of equal highest priority it has the earliest `createdAt`
(the scan itself breaks ties by insertion order, not by comparing
`createdAt`); if no ready waiting job exists, none is selected. -/
theorem selectNext_priority_and_fifo (l : List Job) (now : Int)
    (hpair : l.Pairwise fun a b => a.createdAt ≤ b.createdAt) :
    (∀ j, selectNext l now = some j →
      j ∈ l ∧ isReady j now ∧
        ∀ k ∈ l, isReady k now → k.priority ≤ j.priority ∧
          (k.priority = j.priority → j.createdAt ≤ k.createdAt)) ∧
    (selectNext l now = none ↔ ∀ k ∈ l, ¬ isReady k now) := by
  have hsel := selectNext_eq_firstMax l now
  have hpm : (l.filter (isReadyB now)).Pairwise
      (fun a b => a.createdAt ≤ b.createdAt) :=
    hpair.sublist (List.filter_sublist l)
  constructor
  · intro j hj
    rw [hsel] at hj
    rcases firstMax_spec _ hpm j hj with ⟨hjm, hall⟩
    have hjl := List.mem_filter.mp hjm
    refine ⟨hjl.1, by simpa [isReadyB] using hjl.2, ?_⟩
    intro k hk hrk
    exact hall k (List.mem_filter.mpr ⟨hk, by simpa [isReadyB] using hrk⟩)
  · rw [hsel, firstMax_eq_none]
    constructor
    · intro hnil k hk hrk
      have hmem : k ∈ l.filter (isReadyB now) :=
        List.mem_filter.mpr ⟨hk, by simpa [isReadyB] using hrk⟩
      rw [hnil] at hmem
      exact absurd hmem (List.not_mem_nil k)
    · intro hall
      apply List.filter_eq_nil_iff.mpr
      intro a ha
      simp only [isReadyB, decide_eq_true_eq]
      exact fun hc => hall a ha (by simpa using hc)

/-- Witness for C1: on a concrete createdAt-monotone store the selected
job is the priority-5 job that was enqueued first. -/
theorem selectNext_priority_and_fifo_witness :
    (wstore.jobs.Pairwise fun a b => a.createdAt ≤ b.createdAt) ∧
    baseJob "w2" 5 2 0 JobStatus.waiting ∈ wstore.jobs ∧
    isReady (baseJob "w2" 5 2 0 JobStatus.waiting) 10 := by
  have h := (selectNext_priority_and_fifo wstore.jobs 10 (by decide)).1
    (baseJob "w2" 5 2 0 JobStatus.waiting) (by decide)
  exact ⟨by decide, h.1, h.2.1⟩

/-- Counterexample to C1 as stated: the scan never compares `createdAt`,
so on a store whose insertion order disagrees with `createdAt` order it
returns the first-inserted job of the tied top priority, not the one
with the earliest `createdAt`. -/
theorem selectNext_createdAt_tiebreak_refuted :
    ¬ (∀ (l : List Job) (now : Int) (j : Job), selectNext l now = some j →
        ∀ k ∈ l, isReady k now → k.priority = j.priority →
          j.createdAt ≤ k.createdAt) := by
  intro h
  have h2 := h [cjA, cjB] 10 cjA (by decide) cjB (by decide) (by decide)
    (by decide)
  exact absurd h2 (by decide)

/-- C3: `retryJob` increments `attempts` by exactly one, reschedules at
`now + retryDelay * 2^(attempts - 1)` with the post-increment value,
returns the job to `waiting` and records the error; the failure branch
of `executeJob` routes to it when `attempts < maxRetries`; and with a
positive delay the new `processAt` strictly exceeds the previous one
(the failure happens no earlier than the previous `processAt`). -/
theorem retryJob_backoff (d : Int) (j : Job) (e : String) (now : Int)
    (hlt : j.attempts < j.maxRetries) (hd : 0 < d)
    (hready : j.processAt ≤ now) :
    (retryJob d j e now).attempts = j.attempts + 1 ∧
    (retryJob d j e now).processAt =
      now + d * 2 ^ ((retryJob d j e now).attempts - 1) ∧
    (retryJob d j e now).status = JobStatus.waiting ∧
    (retryJob d j e now).error = some e ∧
    (∀ reg : String → Bool, reg j.type = true →
      executeJob reg d j (HandlerOutcome.failure e) now = retryJob d j e now) ∧
    j.processAt < (retryJob d j e now).processAt := by
  refine ⟨rfl, ?_, rfl, rfl, ?_, ?_⟩
  · show now + d * 2 ^ j.attempts = now + d * 2 ^ (j.attempts + 1 - 1)
    simp
  · intro reg hreg
    unfold executeJob
    rw [hreg]
    show (if j.attempts < j.maxRetries then retryJob d j e now
      else failJob j e now) = retryJob d j e now
    rw [if_pos hlt]
  · show j.processAt < now + d * 2 ^ j.attempts
    have h2 : (0:Int) < 2 ^ j.attempts := pow_pos (by norm_num) _
    have hpos : 0 < d * 2 ^ j.attempts := mul_pos hd h2
    linarith

/-- Witness for C3: a job with one prior attempt, retried at time 100
with base delay 5000, moves strictly past its previous `processAt`. -/
theorem retryJob_backoff_witness :
    j3.attempts < j3.maxRetries ∧ (0:Int) < 5000 ∧ j3.processAt ≤ 100 ∧
    j3.processAt < (retryJob 5000 j3 "err" 100).processAt :=
  ⟨by decide, by decide, by decide,
    (retryJob_backoff 5000 j3 "err" 100 (by decide) (by decide)
      (by decide)).2.2.2.2.2⟩

/-- C4 (amended): `add` performs no validation of `jobType`: a call with
an empty type string creates and stores a waiting job with `type = ""`
exactly like any other call, appending it to the store and incrementing
the total-jobs counter; no rejection happens anywhere in `add` (only the
CLI `queue:add` command refuses a missing type, before calling `add`). -/
theorem add_empty_type_creates_job (cfg : QueueConfig) (st : QueueState)
    (id data : String) (opts : AddOptions) (now : Int) :
    (addJobToQueue cfg st id "" data opts now).1.type = "" ∧
    (addJobToQueue cfg st id "" data opts now).1.status = JobStatus.waiting ∧
    (addJobToQueue cfg st id "" data opts now).1.attempts = 0 ∧
    (addJobToQueue cfg st id "" data opts now).2.jobs =
      st.jobs ++ [(addJobToQueue cfg st id "" data opts now).1] ∧
    (addJobToQueue cfg st id "" data opts now).2.totalJobs =
      st.totalJobs + 1 :=
  ⟨rfl, rfl, rfl, rfl, rfl⟩

/-- Counterexample to C4 as stated: adding a job with an empty type to
an empty queue is not rejected — the total-jobs counter changes and a
job with type `""` is stored. -/
theorem add_empty_type_rejection_refuted :
    (addJobToQueue {} emptyState "job-1" "" "payload" {} 100).2.totalJobs ≠
      emptyState.totalJobs ∧
    ((addJobToQueue {} emptyState "job-1" "" "payload" {} 100).2.jobs.map
      Job.type) = [""] := by
  constructor
  · decide
  · rfl

/-- C5: executing a claimed job whose type has no registered processor
fails it immediately with the no-processor message recorded in `error`,
leaves `attempts` at 0, and the resulting `failed` job admits no further
transition (it is never re-executed), regardless of `maxRetries`. -/
theorem executeJob_no_handler (reg : String → Bool) (d : Int) (j : Job)
    (out : HandlerOutcome) (now : Int)
    (_hact : j.status = JobStatus.active) (hreg : reg j.type = false)
    (hatt : j.attempts = 0) :
    (executeJob reg d j out now).status = JobStatus.failed ∧
    (executeJob reg d j out now).error =
      some ("No processor found for job type: " ++ j.type) ∧
    (executeJob reg d j out now).attempts = 0 ∧
    ∀ (b : Bool) (k2 : Job), ¬ JStep reg d (executeJob reg d j out now) b k2 := by
  have he : executeJob reg d j out now =
      failJob j ("No processor found for job type: " ++ j.type) now := by
    unfold executeJob
    rw [hreg]
    rfl
  rw [he]
  exact ⟨rfl, rfl, hatt, failed_no_step rfl⟩

/-- Witness for C5: an active zero-attempt job of an unregistered type
ends up failed. -/
theorem executeJob_no_handler_witness :
    j5.status = JobStatus.active ∧ regNone j5.type = false ∧
    j5.attempts = 0 ∧
    (executeJob regNone 5000 j5 (HandlerOutcome.failure "unused") 1).status =
      JobStatus.failed :=
  ⟨rfl, rfl, rfl,
    (executeJob_no_handler regNone 5000 j5 (HandlerOutcome.failure "unused") 1
      rfl rfl rfl).1⟩

/-- C9: the `delayed` figure reported by `getStats` equals the derived
view — the number of jobs with `status = waiting` and `processAt > now`
— whatever value the incremental `delayedJobs` counter maintained by
`add` currently holds. -/
theorem getStats_delayed_derived (st : QueueState) (now : Int) :
    (getStats st now).delayedJobs = (delayedView st.jobs now : Int) ∧
    ∀ dj : Int, getStats { st with delayedJobs := dj } now = getStats st now := by
  exact ⟨rfl, fun dj => rfl⟩

/-- C10: the progress side channel clamps every integer, including
values below 0 or above 100, into the closed interval `[0, 100]` via
`max 0 (min 100 percent)`. -/
theorem updateJobProgress_clamped (j : Job) (percent : Int) (now : Int) :
    0 ≤ (updateJobProgress j percent now).progress ∧
    (updateJobProgress j percent now).progress ≤ 100 ∧
    (updateJobProgress j percent now).progress = max 0 (min 100 percent) := by
  refine ⟨?_, ?_, rfl⟩
  · show 0 ≤ max 0 (min 100 percent)
    exact le_max_left _ _
  · show max 0 (min 100 percent) ≤ 100
    exact max_le (by norm_num) (min_le_left _ _)

/-- C2: along every execution of a fresh job (waiting, zero attempts),
`attempts` never exceeds `maxRetries` while the status is `waiting`, the
handler is invoked at most `maxRetries + 1` times, a job at the retry
ceiling that fails again goes to `failed`, and a `failed` job admits no
further transition. -/
theorem retry_ceiling (reg : String → Bool) (d : Int) (j k : Job) (n : Nat)
    (_h0s : j.status = JobStatus.waiting) (h0a : j.attempts = 0)
    (hex : Exec reg d j n k) :
    (k.status = JobStatus.waiting → k.attempts ≤ k.maxRetries) ∧
    n ≤ j.maxRetries + 1 ∧
    (k.status = JobStatus.active → k.attempts = k.maxRetries →
      ∀ (msg : String) (now2 : Int),
        (executeJob reg d k (HandlerOutcome.failure msg) now2).status =
          JobStatus.failed) ∧
    (k.status = JobStatus.failed → ∀ (b : Bool) (k2 : Job),
      ¬ JStep reg d k b k2) := by
  rcases exec_invariant hex (by omega) with ⟨h1, h2, h3⟩
  refine ⟨fun _ => h1, ?_, ?_, fun hf => failed_no_step hf⟩
  · have hle : termFlag k.status ≤ 1 := by
      cases k.status <;> simp [termFlag]
    omega
  · intro _ heq msg now2
    unfold executeJob
    cases hreg : reg k.type with
    | false => rfl
    | true =>
      show (if k.attempts < k.maxRetries then retryJob d k msg now2
        else failJob k msg now2).status = JobStatus.failed
      rw [if_neg (by omega)]
      rfl

/-- Witness for C2: a fresh job claimed at time 0 and failed once at
time 1 has been executed once, within the ceiling. -/
theorem retry_ceiling_witness :
    jw.status = JobStatus.waiting ∧ jw.attempts = 0 ∧
    (1 : Nat) ≤ jw.maxRetries + 1 :=
  ⟨rfl, rfl,
    (retry_ceiling regAll 5000 jw
      (executeJob regAll 5000 (claimJob jw 0) (HandlerOutcome.failure "boom") 1)
      1 rfl rfl
      (Exec.step (Exec.step Exec.refl (JStep.claim jw 0 rfl (by decide)))
        (JStep.exec (claimJob jw 0) (HandlerOutcome.failure "boom") 1
          rfl))).2.1⟩

/-- C6: `remove` on a stored job returns `false` and leaves the state
untouched when the job is `active`; on a stored job of any other status
it returns `true`, the job is gone from the store, and every other job
is still there. -/
theorem removeJob_active_guard (st : QueueState) (i : String) (now : Int)
    (j : Job) (hfind : st.jobs.find? (fun k => k.id == i) = some j) :
    (j.status = JobStatus.active → removeJob st i now = (false, st)) ∧
    (j.status ≠ JobStatus.active →
      (removeJob st i now).1 = true ∧
      j ∉ (removeJob st i now).2.jobs ∧
      (∀ k ∈ st.jobs, k.id ≠ i → k ∈ (removeJob st i now).2.jobs) ∧
      (∀ k ∈ (removeJob st i now).2.jobs, k ∈ st.jobs ∧ k.id ≠ i)) := by
  have hji : j.id = i := by
    have hp := List.find?_some hfind
    simpa using hp
  have hre : removeJob st i now =
      if j.status = JobStatus.active then (false, st)
      else (true, updateStats
        { st with jobs := st.jobs.filter fun k => k.id != i } now) := by
    unfold removeJob
    rw [hfind]
  constructor
  · intro hact
    rw [hre, if_pos hact]
  · intro hact
    rw [hre, if_neg hact]
    refine ⟨rfl, ?_, ?_, ?_⟩
    · show j ∉ st.jobs.filter fun k => k.id != i
      intro hmem
      have h2 := (List.mem_filter.mp hmem).2
      rw [hji] at h2
      simp at h2
    · intro k hk hki
      show k ∈ st.jobs.filter fun k => k.id != i
      exact List.mem_filter.mpr ⟨hk, by simpa using hki⟩
    · intro k hk
      have hk' : k ∈ st.jobs.filter fun k => k.id != i := hk
      have h2 := List.mem_filter.mp hk'
      exact ⟨h2.1, by simpa using h2.2⟩

/-- Witness for C6: in a two-job store, removing the active job is
refused and the state is untouched. -/
theorem removeJob_active_guard_witness :
    stA.jobs.find? (fun k => k.id == "act") =
      some (baseJob "act" 0 1 0 JobStatus.active) ∧
    removeJob stA "act" 10 = (false, stA) :=
  ⟨by decide,
    (removeJob_active_guard stA "act" 10 (baseJob "act" 0 1 0 JobStatus.active)
      (by decide)).1 rfl⟩

theorem countP_add_length_filter_not (p : Job → Prop) [DecidablePred p]
    (l : List Job) :
    (l.countP fun j => decide (p j)) +
      (l.filter fun j => decide (¬ p j)).length = l.length := by
  induction l with
  | nil => rfl
  | cons a l ih =>
    by_cases h : p a
    · simp only [decide_not] at ih ⊢
      simp [List.countP_cons, List.filter_cons, h] at ih ⊢
      omega
    · simp only [decide_not] at ih ⊢
      simp [List.countP_cons, List.filter_cons, h] at ih ⊢
      omega

theorem clean_of_no_match (st2 : QueueState) (olderThan now : Int)
    (h0 : (st2.jobs.countP fun j =>
      decide (sweepMatch (now - olderThan) j)) = 0)
    (hk : (st2.jobs.filter fun j =>
      decide (¬ sweepMatch (now - olderThan) j)) = st2.jobs) :
    clean st2 olderThan now = (0, st2) := by
  unfold clean
  rw [h0, if_neg (lt_irrefl 0), hk]

/-- C7: `clean` removes exactly the completed/failed jobs whose
`updatedAt` is older than `now - olderThan`, returns their count (count
plus survivors equals the original size), leaves every other job in the
store, and run a second time at the same clock it removes nothing and
returns 0. -/
theorem clean_exact_and_idempotent (st : QueueState) (olderThan now : Int) :
    ((clean st olderThan now).1 + (clean st olderThan now).2.jobs.length =
      st.jobs.length) ∧
    (∀ j ∈ st.jobs, sweepMatch (now - olderThan) j →
      j ∉ (clean st olderThan now).2.jobs) ∧
    (∀ j ∈ st.jobs, ¬ sweepMatch (now - olderThan) j →
      j ∈ (clean st olderThan now).2.jobs) ∧
    (∀ j ∈ (clean st olderThan now).2.jobs, j ∈ st.jobs) ∧
    clean (clean st olderThan now).2 olderThan now =
      (0, (clean st olderThan now).2) := by
  have hjobs : (clean st olderThan now).2.jobs =
      st.jobs.filter fun j => decide (¬ sweepMatch (now - olderThan) j) := by
    unfold clean
    split <;> rfl
  have hcount : (clean st olderThan now).1 =
      st.jobs.countP fun j => decide (sweepMatch (now - olderThan) j) := by
    unfold clean
    split <;> rfl
  refine ⟨?_, ?_, ?_, ?_, ?_⟩
  · rw [hjobs, hcount]
    exact countP_add_length_filter_not (sweepMatch (now - olderThan)) st.jobs
  · intro j _ hm hmem
    rw [hjobs] at hmem
    have h2 := (List.mem_filter.mp hmem).2
    simp only [decide_eq_true_eq] at h2
    exact h2 hm
  · intro j hj hm
    rw [hjobs]
    exact List.mem_filter.mpr ⟨hj, by simpa using hm⟩
  · intro j hj
    rw [hjobs] at hj
    exact (List.mem_filter.mp hj).1
  · have h0 : ((clean st olderThan now).2.jobs.countP fun j =>
        decide (sweepMatch (now - olderThan) j)) = 0 := by
      apply List.countP_eq_zero.mpr
      intro a ha
      rw [hjobs] at ha
      have h2 := (List.mem_filter.mp ha).2
      simpa using h2
    have hkept2 : ((clean st olderThan now).2.jobs.filter fun j =>
        decide (¬ sweepMatch (now - olderThan) j)) =
        (clean st olderThan now).2.jobs := by
      apply List.filter_eq_self.mpr
      intro a ha
      rw [hjobs] at ha
      exact (List.mem_filter.mp ha).2
    exact clean_of_no_match _ olderThan now h0 hkept2

/-- C8 (amended): `getJobs` returns only stored jobs matching the status
filter, at most `limit` of them, ordered by priority descending then
`createdAt` ascending; and on a store whose insertion order has
nondecreasing `createdAt` and distinct ids — every store reachable
through `add` — restricting that ordering to ready jobs gives exactly
the scheduler's dispatch order (on arbitrary stores the two disagree,
because the scan breaks priority ties by insertion order while the sort
compares `createdAt`). -/
theorem getJobs_order (st : QueueState) (f : Option JobStatus) (limit : Nat)
    (now : Int)
    (hpair : st.jobs.Pairwise fun a b => a.createdAt ≤ b.createdAt)
    (hids : (st.jobs.map Job.id).Nodup) :
    (∀ j ∈ getJobs st f limit, j ∈ st.jobs ∧ ∀ s, f = some s → j.status = s) ∧
    (getJobs st f limit).length ≤ limit ∧
    (getJobs st f limit).Pairwise (fun a b =>
      b.priority < a.priority ∨
        (a.priority = b.priority ∧ a.createdAt ≤ b.createdAt)) ∧
    dispatchList st.jobs now =
      (getJobs st none st.jobs.length).filter (isReadyB now) := by
  refine ⟨?_, ?_, ?_, ?_⟩
  · intro j hj
    cases f with
    | none =>
      have hj2 : j ∈ sortJobs st.jobs := List.mem_of_mem_take hj
      exact ⟨(sortJobs_perm st.jobs).mem_iff.mp hj2, by intro s hs; cases hs⟩
    | some s =>
      have hj2 : j ∈ sortJobs (st.jobs.filter fun k => decide (k.status = s)) :=
        List.mem_of_mem_take hj
      have hj3 := (sortJobs_perm _).mem_iff.mp hj2
      have hj4 := List.mem_filter.mp hj3
      refine ⟨hj4.1, ?_⟩
      intro s2 hs2
      cases hs2
      simpa using hj4.2
  · exact List.length_take_le _ _
  · refine List.Pairwise.sublist (List.take_sublist _ _) ?_
    refine (sortJobs_sorted _).imp ?_
    intro a b h
    unfold jobBefore at h
    omega
  · calc dispatchList st.jobs now
        = sortJobs (st.jobs.filter (isReadyB now)) :=
          dispatchAux_eq now st.jobs.length st.jobs hpair hids
            (List.length_filter_le _ _)
      _ = (sortJobs st.jobs).filter (isReadyB now) :=
          (filter_sortJobs _ _).symm
      _ = ((sortJobs st.jobs).take st.jobs.length).filter (isReadyB now) := by
          rw [List.take_of_length_le
            (le_of_eq (sortJobs_perm st.jobs).length_eq)]
      _ = (getJobs st none st.jobs.length).filter (isReadyB now) := rfl

/-- Witness for C8: on a concrete createdAt-monotone store with distinct
ids, the dispatch order coincides with the ready part of the listed
order. -/
theorem getJobs_order_witness :
    (wstore.jobs.Pairwise fun a b => a.createdAt ≤ b.createdAt) ∧
    (wstore.jobs.map Job.id).Nodup ∧
    dispatchList wstore.jobs 10 =
      (getJobs wstore none wstore.jobs.length).filter (isReadyB 10) :=
  ⟨by decide, by decide,
    (getJobs_order wstore none wstore.jobs.length 10 (by decide)
      (by decide)).2.2.2⟩

/-- Counterexample to C8 as stated: on a store whose insertion order
disagrees with `createdAt` order, the listed order restricted to ready
jobs differs from the dispatch order. -/
theorem getJobs_dispatch_coincidence_refuted :
    dispatchList [cjA, cjB] 10 ≠
      (getJobs { emptyState with jobs := [cjA, cjB] } none 2).filter
        (isReadyB 10) := by
  decide

end GbrQueue
